import Mathlib

/-!
Verification development for the bezier-path boolean-arithmetic engine of the
flowbetween repository.

The structural graph model below is translated from
`src/curves/src/bezier/path/graph_path.rs`; the ray-cast classification model
is translated from `src/curves/src/bezier/path/arithmetic/add.rs`.

Modelling conventions:
* Rust `f64` coordinates are modelled as exact rationals (`ℚ`).  The only
  floating-point comparison the translated code performs is
  `distance_to < CLOSE_DISTANCE`; since both sides are non-negative this is
  modelled by the equivalent squared comparison, which stays inside `ℚ`.
* Rust `usize` indices are modelled as `Nat`; no index arithmetic here can
  overflow a 64-bit machine word for any input the lemmas quantify over, so no
  wrap-around modelling is needed.
* Vectors (`Vec<_>`) are modelled as `List _`; indexed assignment
  `v[i] = x` is modelled by `modifyAt`.
-/

set_option autoImplicit false

namespace FlowBetween

/-- Indexed assignment: `modifyAt l i f` replaces element `i` of `l` by `f`
applied to it (no-op when `i` is out of range), mirroring `v[i] = f(v[i])` on a
Rust `Vec`. -/
def modifyAt {α : Type} : List α → Nat → (α → α) → List α
  | [], _, _ => []
  | a :: l, 0, f => f a :: l
  | a :: l, n + 1, f => a :: modifyAt l n f

theorem length_modifyAt {α : Type} (l : List α) (i : Nat) (f : α → α) :
    (modifyAt l i f).length = l.length := by
  induction l generalizing i with
  | nil => rfl
  | cons a l ih =>
    cases i with
    | zero => rfl
    | succ n => simp [modifyAt, ih]

theorem get?_modifyAt_ne {α : Type} (l : List α) (i j : Nat) (f : α → α)
    (h : i ≠ j) : (modifyAt l i f).get? j = l.get? j := by
  induction l generalizing i j with
  | nil => rfl
  | cons a l ih =>
    cases i with
    | zero =>
      cases j with
      | zero => exact absurd rfl h
      | succ m => rfl
    | succ n =>
      cases j with
      | zero => rfl
      | succ m => exact ih n m (fun hnm => h (by rw [hnm]))

theorem get?_modifyAt_self {α : Type} (l : List α) (i : Nat) (f : α → α)
    (a : α) (h : l.get? i = some a) :
    (modifyAt l i f).get? i = some (f a) := by
  induction l generalizing i with
  | nil => cases h
  | cons b l ih =>
    cases i with
    | zero =>
      cases h
      rfl
    | succ n => exact ih n h

theorem modifyAt_append_left {α : Type} (A B : List α) (i : Nat) (f : α → α)
    (h : i < A.length) : modifyAt (A ++ B) i f = modifyAt A i f ++ B := by
  induction A generalizing i with
  | nil => exact absurd h (by simp)
  | cons a A ih =>
    cases i with
    | zero => rfl
    | succ n =>
      have hrec := ih n (Nat.lt_of_succ_lt_succ h)
      show a :: modifyAt (A ++ B) n f = a :: (modifyAt A n f ++ B)
      rw [hrec]

theorem modifyAt_append_eq {α : Type} (A : List α) (x : α) (B : List α)
    (f : α → α) : modifyAt (A ++ x :: B) A.length f = A ++ f x :: B := by
  induction A with
  | nil => rfl
  | cons a A ih => simp [modifyAt, ih]

theorem get?_dropLast {α : Type} (l : List α) (i : Nat) (h : i + 1 < l.length) :
    l.dropLast.get? i = l.get? i := by
  induction l generalizing i with
  | nil => simp at h
  | cons a l ih =>
    cases l with
    | nil => simp at h
    | cons b l =>
      cases i with
      | zero => rfl
      | succ n =>
        simp only [List.length_cons] at h
        simpa [List.dropLast, List.get?] using ih n (Nat.lt_of_succ_lt_succ h)

/-! ### Points (the `Coordinate` abstraction, specialised to 2-D) -/

/-- A 2-D point with rational coordinates, modelling the `Point` type parameter
(`Coordinate + Coordinate2D`) of `GraphPath`. -/
abbrev Point : Type := ℚ × ℚ

/-- Models `Point::origin()`. -/
def origin : Point := (0, 0)

/-- Componentwise subtraction, modelling `Point - Point` from the `Coordinate`
contract. -/
def psub (p q : Point) : Point := (p.1 - q.1, p.2 - q.2)

/-- Componentwise scaling, modelling `Point * f64`. -/
def pscale (k : ℚ) (p : Point) : Point := (k * p.1, k * p.2)

/-- Squared Euclidean distance.  `distance_to` in the source is the Euclidean
distance; all comparisons of it in the translated code are against a positive
constant, so the squared form is an exact model. -/
def distSq (p q : Point) : ℚ := (p.1 - q.1) ^ 2 + (p.2 - q.2) ^ 2

/-- The constant `CLOSE_DISTANCE = 0.01` from graph_path.rs line 9, squared (see `distSq`). -/
def CLOSE_DISTANCE_SQ : ℚ := (1 / 100) ^ 2

/-! ### The graph path structure (graph_path.rs) -/

/-- The enum `GraphPathEdgeKind` from graph_path.rs (this early version of the file has
only the two categorised kinds). -/
inductive GraphPathEdgeKind : Type
  | Exterior : GraphPathEdgeKind
  | Interior : GraphPathEdgeKind
deriving DecidableEq, Repr

/-- The enum `GraphPathEdge`: an edge carrying its kind and the index of its target
node. -/
inductive GraphPathEdge : Type
  | Exterior : Nat → GraphPathEdge
  | Interior : Nat → GraphPathEdge
deriving DecidableEq, Repr

/-- Models `GraphPathEdge::to_kind`. -/
def GraphPathEdge.to_kind : GraphPathEdge → GraphPathEdgeKind × Nat
  | GraphPathEdge.Exterior i => (GraphPathEdgeKind.Exterior, i)
  | GraphPathEdge.Interior i => (GraphPathEdgeKind.Interior, i)

/-- Models `GraphPathEdge::set_target`. -/
def GraphPathEdge.set_target : GraphPathEdge → Nat → GraphPathEdge
  | GraphPathEdge.Exterior _, j => GraphPathEdge.Exterior j
  | GraphPathEdge.Interior _, j => GraphPathEdge.Interior j

/-- One entry of the `points` vector of a `GraphPath`: the tuple
`(Point, Point, Point, Vec<GraphPathEdge>)` — two incoming control points, the
end point, and the outgoing edges. -/
structure GNode : Type where
  cp1 : Point
  cp2 : Point
  pt : Point
  edges : List GraphPathEdge
deriving DecidableEq, Repr

/-- The struct `GraphPath`: the arena of nodes. -/
structure GraphPath : Type where
  points : List GNode
deriving DecidableEq, Repr

/-- Models `GraphPath::num_points`. -/
def num_points (g : GraphPath) : Nat := g.points.length

/-- One segment of an input `BezierPath`: `(control1, control2, end)` as
yielded by `path.points()`. -/
abbrev Triple : Type := Point × Point × Point

/-- The initial node pushed by `from_path`:
`(Point::origin(), Point::origin(), start_point, vec![])`. -/
def start_node (start : Point) : GNode := ⟨origin, origin, start, []⟩

/-- Append `GraphPathEdge::Exterior j` to a node's edge vector
(`points[last_point].3.push(...)`). -/
def add_edge (j : Nat) (n : GNode) : GNode :=
  { n with edges := n.edges ++ [GraphPathEdge.Exterior j] }

/-- Default node for total indexing (never produced by in-range access). -/
def defaultGNode : GNode := ⟨origin, origin, origin, []⟩

/-- Total indexing into the node vector, modelling `points[i]` (all in-source
accesses are in range). -/
def getNode (pts : List GNode) (i : Nat) : GNode := (pts.get? i).getD defaultGNode

/-- The body of the `for (cp1, cp2, end_point) in path.points()` loop of
`from_path` (graph_path.rs lines 95-105): push the new node, add an exterior
edge from the previous node to it, advance `last_point`/`next_point`.  The
state is `(points, last_point)`; `next_point` is always `last_point + 1`. -/
def from_path_step (st : List GNode × Nat) (t : Triple) : List GNode × Nat :=
  (modifyAt (st.1 ++ [⟨t.1, t.2.1, t.2.2, []⟩]) st.2 (add_edge (st.2 + 1)),
   st.2 + 1)

/-- Models `GraphPath::from_path` (graph_path.rs lines 82-136).  The input path is
given by its start point and the list of `(cp1, cp2, end_point)` triples of
`path.points()`.  After the loop: if the graph has edges, either the terminal
point is within `CLOSE_DISTANCE` of the start (transplant the last node's
control points onto node 0, pop the last node) or a closing cubic is
synthesised (`close_vector * 0.33` / `close_vector * 0.66` stored as node 0's
control points); in both cases an `Exterior` edge to node 0 is then pushed
onto node `last_point`.  With no edges the lone start node is popped. -/
def from_path (start : Point) (ts : List Triple) : GraphPath :=
  let st := ts.foldl from_path_step ([start_node start], 0)
  if st.2 > 0 then
    let closing :=
      if distSq start (getNode st.1 st.2).pt < CLOSE_DISTANCE_SQ then
        ((modifyAt st.1 0 (fun n =>
            { n with cp1 := (getNode st.1 st.2).cp1,
                     cp2 := (getNode st.1 st.2).cp2 })).dropLast,
         st.2 - 1)
      else
        (modifyAt st.1 0 (fun n =>
            { n with cp1 := pscale (33 / 100) (psub (getNode st.1 st.2).pt start),
                     cp2 := pscale (66 / 100) (psub (getNode st.1 st.2).pt start) }),
         st.2)
    ⟨modifyAt closing.1 closing.2 (add_edge 0)⟩
  else
    ⟨st.1.dropLast⟩

/-- Rebase one edge by the node-count offset of the first graph:
`edge.set_target(index + offset)` where `index` comes from `edge.to_kind()`
(graph_path.rs lines 178-181). -/
def offset_edge (off : Nat) (e : GraphPathEdge) : GraphPathEdge :=
  e.set_target (e.to_kind.2 + off)

/-- Models `GraphPath::merge` (graph_path.rs lines 169-191): concatenate the node
vectors, incrementing every edge target of the merged-in graph by the first
graph's node count. -/
def merge (g merge_path : GraphPath) : GraphPath :=
  ⟨g.points ++ merge_path.points.map (fun n =>
      { n with edges := n.edges.map (offset_edge g.points.length) })⟩

/-- Models `GraphPath::detect_collisions` (graph_path.rs lines 197-230).  The Rust
body iterates over all edge pairs drawn from the two ranges, builds local
`GraphEdge` views, computes their bounding boxes and, when those overlap, the
collision list from `curve_intersects_curve` — but every one of these is a
local binding that is then dropped: the function contains no statement that
writes to `self` (only comments describing the intended subdivision).  As a
transformation of the graph state it is therefore the identity, independent of
the ranges and the accuracy. -/
def detect_collisions (g : GraphPath) (collide_from collide_to : Nat × Nat)
    (accuracy : ℚ) : GraphPath :=
  g

/-- Models `GraphPath::collide` (graph_path.rs lines 242-253): merge the other path
in, then run `detect_collisions` between the original node range and the
merged-in node range. -/
def collide (g collide_path : GraphPath) (accuracy : ℚ) : GraphPath :=
  let collision_offset := g.points.length
  let merged := merge g collide_path
  detect_collisions merged (0, collision_offset)
    (collision_offset, merged.points.length) accuracy

/-! ### Ray-cast classification (arithmetic/add.rs)

`set_exterior_by_adding` in add.rs is written against the labelled variant
`GraphPath<Point, PathLabel>` whose support code (`all_edges`,
`ray_collisions`, `edge_kind`, `edge_label`, `set_edge_kind_connected`, the
three-valued edge kind) is not among the sources; only its declarations and
this caller are.  Those parts are modelled from the spec below (each carries a
`Modelled from the spec:` comment); the loop body itself is translated
directly from add.rs lines 18-83. -/

/-- The enum `PathSource` (spec §3, glossary): which original input path an edge came
from. -/
inductive PathSource : Type
  | Path1 : PathSource
  | Path2 : PathSource
deriving DecidableEq, Repr

/-- Winding direction component of a `PathLabel` (spec glossary: "per-edge
metadata identifying ... its traversal orientation"). -/
inductive PathDirection : Type
  | Clockwise : PathDirection
  | Anticlockwise : PathDirection
deriving DecidableEq, Repr

/-- The label `PathLabel(source, direction)` (spec §3): per-edge construction metadata. -/
structure PathLabel : Type where
  source : PathSource
  direction : PathDirection
deriving DecidableEq, Repr

/-- Modelled from the spec (§3, §9): the three-valued per-edge classification
tag `{Uncategorised, Interior, Exterior}` of the labelled graph variant (the
graph_path.rs in the sources is an earlier two-valued version). -/
inductive EdgeKind : Type
  | Uncategorised : EdgeKind
  | Interior : EdgeKind
  | Exterior : EdgeKind
deriving DecidableEq, Repr

/-- One edge of the labelled graph as the classification loop sees it: its
current kind and its `PathLabel`.  Edges are addressed by their position in
the list (the order `all_edges` enumerates them in). -/
structure CEdge : Type where
  kind : EdgeKind
  label : PathLabel
deriving DecidableEq, Repr

/-- The state of a labelled graph during classification: just its edge
vector.  The geometry (node positions, control points) is fixed during the
whole loop — the loop only ever writes edge kinds — so it does not appear in
the state; its influence enters through the ray-collision oracle. -/
structure CGraph : Type where
  edges : List CEdge
deriving DecidableEq, Repr

/-- Models `self.edge_kind(edge)`: the current kind of edge `e` (out-of-range reads
never occur in the loop; the default is arbitrary). -/
def edgeKind (g : CGraph) (e : Nat) : EdgeKind :=
  ((g.edges.get? e).map CEdge.kind).getD EdgeKind.Uncategorised

/-- The `source_path` component of `self.edge_label(edge)`. -/
def edgeSource (g : CGraph) (e : Nat) : PathSource :=
  ((g.edges.get? e).map (fun c => c.label.source)).getD PathSource.Path1

/-- Write kind `k` to edge `e`. -/
def setEdgeKind (k : EdgeKind) (e : Nat) (g : CGraph) : CGraph :=
  ⟨modifyAt g.edges e (fun c => { c with kind := k })⟩

/-- Modelled from the spec (§4.5 step 5): the set of edges that
`set_edge_kind_connected` writes together with `e` — "any other edge
representing the same physical curve traversed in the opposite direction".
`conn` is that opposite-direction relation, supplied as part of the graph's
topology. -/
def eclass (conn : Nat → List Nat) (e : Nat) : List Nat := e :: conn e

/-- Modelled from the spec (§4.5 step 5): `set_edge_kind_connected` assigns
kind `k` to edge `e` and to every edge representing the same curve in the
opposite direction. -/
def set_edge_kind_connected (conn : Nat → List Nat) (k : EdgeKind) (e : Nat)
    (g : CGraph) : CGraph :=
  (eclass conn e).foldl (fun g i => setEdgeKind k i g) g

/-- One ray crossing as returned by `ray_collisions` after the
`.map(|(collision, curve_t, _line_t)| ...)` projection in add.rs lines 32-35:
whether the crossing is an intersection (`collision.is_intersection()`), and
the edges that coincide there (`for edge in collision`). -/
structure RayCollision : Type where
  is_intersection : Bool
  hit_edges : List Nat
deriving DecidableEq, Repr

/-- Toggling of the inside-state pair at a crossing (add.rs lines 52-55):
`match source_path { Path1 => inside_path1 = !inside_path1, Path2 => ... }`. -/
def toggleSource (s : PathSource) (st : Bool × Bool) : Bool × Bool :=
  match s with
  | PathSource.Path1 => (!st.1, st.2)
  | PathSource.Path2 => (st.1, !st.2)

/-- The body of `for edge in collision` (add.rs lines 46-76).  The state is
`(graph, inside_path1, inside_path2)`; `was_inside` was computed before the
collision's edges are walked, and `is_intersection` is the collision's flag. -/
def process_edge (conn : Nat → List Nat) (is_int was_inside : Bool)
    (st : CGraph × Bool × Bool) (e : Nat) : CGraph × Bool × Bool :=
  let g := st.1
  let edge_kind := edgeKind g e
  let source_path := edgeSource g e
  let ins := toggleSource source_path (st.2.1, st.2.2)
  if is_int then
    (g, ins)
  else
    let is_inside := ins.1 || ins.2
    let is_exterior := xor was_inside is_inside
    if edge_kind = EdgeKind.Uncategorised then
      (set_edge_kind_connected conn
        (if is_exterior then EdgeKind.Exterior else EdgeKind.Interior) e g, ins)
    else
      (g, ins)

/-- The body of `for (collision, _curve_t) in collisions` (add.rs lines
41-77): snapshot `was_inside = inside_path1 || inside_path2`, then walk the
collision's edges. -/
def process_collision (conn : Nat → List Nat) (st : CGraph × Bool × Bool)
    (c : RayCollision) : CGraph × Bool × Bool :=
  let was_inside := st.2.1 || st.2.2
  c.hit_edges.foldl (process_edge conn c.is_intersection was_inside) st

/-- One iteration of the outer loop for a chosen uncategorised edge `e`
(add.rs lines 30-77): cast the ray from the outside point to the midpoint of
`e` and process the resulting crossings in order, starting from
`inside_path1 = inside_path2 = false`.  `oracle e` is the spec-modelled
result of `self.ray_collisions(&(outside_point, point_at_pos(e, 0.5)))`: the
ray's geometry depends only on the (classification-invariant) node data and
on which edge is aimed at, never on the edge kinds, so it is a function of
`e` alone. -/
def run_ray (conn : Nat → List Nat) (oracle : Nat → List RayCollision)
    (g : CGraph) (e : Nat) : CGraph :=
  ((oracle e).foldl (process_collision conn) (g, false, false)).1

/-- Helper for `first_uncategorised`: scan the edge vector from position
`i`. -/
def firstUncatAux : List CEdge → Nat → Option Nat
  | [], _ => none
  | c :: cs, i =>
    if c.kind = EdgeKind.Uncategorised then some i else firstUncatAux cs (i + 1)

/-- The edge selected at the top of the loop (add.rs lines 25-28):
`self.all_edges().filter(|e| e.kind() == Uncategorised).nth(0)` — the first
edge, in enumeration order, that is still `Uncategorised` (`all_edges`
enumerates edges in a fixed order independent of their kinds; we identify an
edge with its position in that order). -/
def first_uncategorised (g : CGraph) : Option Nat := firstUncatAux g.edges 0

/-- Models `set_exterior_by_adding` (add.rs lines 18-83).  The Rust outer loop is an
unguarded `loop { ... }` that exits only when no `Uncategorised` edge remains;
`fuel` makes the number of executed iterations explicit so that statements
about iteration counts and termination can be made: `set_exterior_by_adding
conn oracle fuel g` is the graph after at most `fuel` iterations, and the
Rust function's behaviour is its limit as `fuel` grows. -/
def set_exterior_by_adding (conn : Nat → List Nat)
    (oracle : Nat → List RayCollision) : Nat → CGraph → CGraph
  | 0, g => g
  | fuel + 1, g =>
    match first_uncategorised g with
    | none => g
    | some e => set_exterior_by_adding conn oracle fuel (run_ray conn oracle g e)

/-- Total number of edges of the labelled graph. -/
def num_edges (g : CGraph) : Nat := g.edges.length

/-- Number of edges still `Uncategorised`. -/
def uncat_count (g : CGraph) : Nat :=
  (g.edges.filter (fun c => c.kind == EdgeKind.Uncategorised)).length

/-! ### The arithmetic entrypoint (`path_add`, add.rs lines 92-117) -/

/-- Models `path_add` (add.rs lines 92-117).  `from_path1` / `from_path2` model the
caller-supplied output-construction capability `POut::from_path` applied to
elements of the two input sequences (spec §6).  The non-empty branch — build
the two labelled graphs, merge, collide, classify, extract — uses only
components outside the sources; it is abstracted as `pipeline`, which the
translated empty-input branches never invoke. -/
def path_add {P1 P2 POut : Type} (from_path1 : P1 → POut)
    (from_path2 : P2 → POut) (pipeline : List P1 → List P2 → ℚ → List POut)
    (path1 : List P1) (path2 : List P2) (accuracy : ℚ) : List POut :=
  if path1.length = 0 then
    path2.map from_path2
  else if path2.length = 0 then
    path1.map from_path1
  else
    pipeline path1 path2 accuracy

/-! ## Claim theorems: structural graph layer -/

/-- C8: an input path contributing zero edges — a single point with no
segment triples — yields a graph with zero nodes: `from_path` pops the lone
start node and silently drops the path. -/
theorem from_path_drops_single_point (start : Point) :
    (from_path start []).points = [] := by
  simp [from_path, from_path_step]

/-- C9: `collide` returns a graph whose points and edges are exactly those of
`merge`: `detect_collisions` performs no mutation of the graph, so colliding
is merging. -/
theorem collide_refines_merge (a b : GraphPath) (accuracy : ℚ) :
    collide a b accuracy = merge a b := rfl

/-- C5: if either input sequence of `path_add` is empty, the other sequence is
returned converted element-wise via the output `from_path` capability, in
order and otherwise unchanged, without invoking the graph pipeline;
in particular `path_add([], q) = map from_path q` and
`path_add(q, []) = map from_path q`. -/
theorem path_add_empty_short_circuit {P1 P2 POut : Type}
    (from_path1 : P1 → POut) (from_path2 : P2 → POut)
    (pipeline : List P1 → List P2 → ℚ → List POut)
    (q1 : List P1) (q2 : List P2) (accuracy : ℚ) :
    path_add from_path1 from_path2 pipeline [] q2 accuracy = q2.map from_path2
    ∧ path_add from_path1 from_path2 pipeline q1 [] accuracy
        = q1.map from_path1 := by
  constructor
  · simp [path_add]
  · cases q1 with
    | nil => simp [path_add]
    | cons a l => simp [path_add]

/-- C6: `a.merge(b)` has `num_points a + num_points b` nodes; the nodes of `a`
keep their indices and are unchanged (points, control points and edges); and
node `j` of `b` appears at index `num_points a + j` with the same points and
with every edge retargeted (via the source's own `set_target` / `to_kind`
operations) to its old target plus `num_points a`, its kind untouched. -/
theorem merge_node_structure (a b : GraphPath) :
    num_points (merge a b) = num_points a + num_points b
    ∧ (∀ i, i < num_points a → (merge a b).points.get? i = a.points.get? i)
    ∧ (∀ j n, b.points.get? j = some n →
        (merge a b).points.get? (num_points a + j)
          = some ⟨n.cp1, n.cp2, n.pt,
              n.edges.map (fun e => e.set_target (e.to_kind.2 + num_points a))⟩) := by
  refine ⟨?_, ?_, ?_⟩
  · simp [merge, num_points]
  · intro i hi
    simp only [merge]
    exact List.get?_append hi
  · intro j n hj
    simp only [merge, num_points]
    rw [List.get?_append_right (Nat.le_add_right _ _)]
    rw [Nat.add_sub_cancel_left, List.get?_map, hj]
    rfl

/-- Closed witness for C6 at concrete two-node graphs. -/
theorem merge_node_structure_witness :
    (0 : Nat) < num_points (⟨[⟨origin, origin, (1, 1), [GraphPathEdge.Exterior 0]⟩]⟩ : GraphPath)
    ∧ (⟨[⟨origin, origin, (2, 2), [GraphPathEdge.Interior 0]⟩]⟩ : GraphPath).points.get? 0
        = some ⟨origin, origin, (2, 2), [GraphPathEdge.Interior 0]⟩
    ∧ num_points (merge ⟨[⟨origin, origin, (1, 1), [GraphPathEdge.Exterior 0]⟩]⟩
        ⟨[⟨origin, origin, (2, 2), [GraphPathEdge.Interior 0]⟩]⟩) = 2
    ∧ (merge ⟨[⟨origin, origin, (1, 1), [GraphPathEdge.Exterior 0]⟩]⟩
        ⟨[⟨origin, origin, (2, 2), [GraphPathEdge.Interior 0]⟩]⟩).points.get? 0
        = some ⟨origin, origin, (1, 1), [GraphPathEdge.Exterior 0]⟩
    ∧ (merge ⟨[⟨origin, origin, (1, 1), [GraphPathEdge.Exterior 0]⟩]⟩
        ⟨[⟨origin, origin, (2, 2), [GraphPathEdge.Interior 0]⟩]⟩).points.get? 1
        = some ⟨origin, origin, (2, 2), [GraphPathEdge.Interior 1]⟩ := by
  have h := merge_node_structure
    ⟨[⟨origin, origin, (1, 1), [GraphPathEdge.Exterior 0]⟩]⟩
    ⟨[⟨origin, origin, (2, 2), [GraphPathEdge.Interior 0]⟩]⟩
  refine ⟨Nat.zero_lt_one, rfl, h.1, h.2.1 0 Nat.zero_lt_one, ?_⟩
  exact h.2.2 0 _ rfl

/-- A two-node graph whose single-segment loop runs along the straight line
from (0,0) to (10,10) and back: one side of the C1 failing input. -/
def crossA : GraphPath :=
  ⟨[⟨origin, origin, (0, 0), [GraphPathEdge.Exterior 1]⟩,
    ⟨(10 / 3, 10 / 3), (20 / 3, 20 / 3), (10, 10), [GraphPathEdge.Exterior 0]⟩]⟩

/-- A two-node graph whose single-segment loop runs along the straight line
from (0,10) to (10,0) and back: it crosses `crossA`'s first edge at the
interior point (5,5), at curve parameter 1/2 on both curves. -/
def crossB : GraphPath :=
  ⟨[⟨origin, origin, (0, 10), [GraphPathEdge.Exterior 1]⟩,
    ⟨(10 / 3, 20 / 3), (20 / 3, 10 / 3), (10, 0), [GraphPathEdge.Exterior 0]⟩]⟩

/-- C1 (code bug): evaluating `collide` — and with it `detect_collisions` over
the two node ranges — on a pair of graphs whose edges have overlapping
bounding boxes and an interior intersection (the straight cubic segments
(0,0)→(10,10) and (0,10)→(10,0) of `crossA`/`crossB` cross at (5,5), curve
parameter 1/2 on each): no node is inserted and no edge is split; the node
count stays at 2 + 2 = 4 and every node keeps its single outgoing edge,
where the claim (and the function's own doc comment) require a new shared
branch node and a strictly larger node count. -/
theorem detect_collisions_inserts_no_nodes :
    num_points (collide crossA crossB (1 / 100)) = 4
    ∧ (collide crossA crossB (1 / 100)).points.map (fun n => n.edges.length)
        = [1, 1, 1, 1] := by
  constructor
  · rfl
  · rfl

/-- C10 (code bug): `from_path` on a closed path whose terminal point
coincides with its start point — start (0,0), two segments (0,0)→(10,0) and
(10,0)→(0,0).  The intended ring (the in-code comment says the popped node is
"replaced" by an edge back to the start) would give every node exactly one
outgoing edge; instead node 1 keeps its stale edge to the removed node,
ending with the two outgoing edges `[Exterior 2, Exterior 0]` in a graph with
only 2 nodes — the first one dangling out of range. -/
theorem from_path_close_case_dangling_edge :
    num_points (from_path ((0 : ℚ), (0 : ℚ))
        [((3, 0), (7, 0), (10, 0)), ((7, 0), (3, 0), (0, 0))]) = 2
    ∧ (from_path ((0 : ℚ), (0 : ℚ))
        [((3, 0), (7, 0), (10, 0)), ((7, 0), (3, 0), (0, 0))]).points.map GNode.edges
        = [[GraphPathEdge.Exterior 1],
           [GraphPathEdge.Exterior 2, GraphPathEdge.Exterior 0]] := by
  constructor
  · norm_num [from_path, from_path_step, start_node, add_edge, modifyAt,
      getNode, distSq, CLOSE_DISTANCE_SQ, pscale, psub, origin, num_points]
  · norm_num [from_path, from_path_step, start_node, add_edge, modifyAt,
      getNode, distSq, CLOSE_DISTANCE_SQ, pscale, psub, origin]

/-- Unified indexing lemma for `modifyAt`. -/
theorem get?_modifyAt {α : Type} (l : List α) (i j : Nat) (f : α → α) :
    (modifyAt l i f).get? j = if i = j then (l.get? j).map f else l.get? j := by
  by_cases h : i = j
  · subst h
    rw [if_pos rfl]
    cases hl : l.get? i with
    | none =>
      have hlen : l.length ≤ i := List.get?_eq_none.1 hl
      have h2 : (modifyAt l i f).get? i = none :=
        List.get?_eq_none.2 (by rw [length_modifyAt]; exact hlen)
      rw [h2]
      rfl
    | some a =>
      rw [get?_modifyAt_self l i f a hl]
      rfl
  · rw [if_neg h, get?_modifyAt_ne l i j f h]

/-- The shape of the node list produced by the `from_path` vertex loop, after
the first node: node `i` of `chain_nodes k ts` holds the data of triple `i`
and (except for the final node, which the loop leaves edgeless) a single
exterior edge to the next node, whose index is `k + i + 1`. -/
def chain_nodes : Nat → List Triple → List GNode
  | _, [] => []
  | _, [t] => [⟨t.1, t.2.1, t.2.2, []⟩]
  | k, t :: t2 :: ts =>
    ⟨t.1, t.2.1, t.2.2, [GraphPathEdge.Exterior (k + 1)]⟩ ::
      chain_nodes (k + 1) (t2 :: ts)

theorem chain_nodes_length (k : Nat) (ts : List Triple) :
    (chain_nodes k ts).length = ts.length := by
  induction ts generalizing k with
  | nil => rfl
  | cons t ts ih =>
    cases ts with
    | nil => rfl
    | cons t2 ts' => simp [chain_nodes, ih]

theorem chain_nodes_get_last (k : Nat) (ts : List Triple) (h : ts ≠ []) :
    (chain_nodes k ts).get? (ts.length - 1)
      = some ⟨(ts.getLast h).1, (ts.getLast h).2.1, (ts.getLast h).2.2, []⟩ := by
  induction ts generalizing k with
  | nil => exact absurd rfl h
  | cons t ts ih =>
    cases ts with
    | nil => rfl
    | cons t2 ts' =>
      have hne : t2 :: ts' ≠ [] := List.cons_ne_nil _ _
      have hlast : (t :: t2 :: ts').getLast h = (t2 :: ts').getLast hne :=
        List.getLast_cons hne
      rw [hlast]
      have : (t :: t2 :: ts').length - 1 = ((t2 :: ts').length - 1) + 1 := by
        simp
      rw [this]
      exact ih (k + 1) hne

theorem chain_nodes_get_edges (k : Nat) (ts : List Triple) (i : Nat)
    (h : i + 1 < ts.length) :
    ((chain_nodes k ts).get? i).map GNode.edges
      = some [GraphPathEdge.Exterior (k + i + 1)] := by
  induction ts generalizing k i with
  | nil => exact absurd h (by simp)
  | cons t ts ih =>
    cases ts with
    | nil => simp at h
    | cons t2 ts' =>
      cases i with
      | zero => rfl
      | succ m =>
        have hm : m + 1 < (t2 :: ts').length := by
          simpa [Nat.succ_lt_succ_iff] using h
        have := ih (k + 1) m hm
        have harith : k + 1 + m + 1 = k + (m + 1) + 1 := by omega
        rw [← harith]
        exact this

/-- Closed form of the `from_path` vertex loop: starting from an arbitrary
accumulator with `last_point` pointing at the final node, folding the
remaining triples appends the corresponding chain of nodes and threads the
connecting edge through the formerly final node. -/
theorem foldl_from_path_step_eq (ts : List Triple) (t : Triple)
    (pts : List GNode) (last : Nat) (h : pts.length = last + 1) :
    (t :: ts).foldl from_path_step (pts, last)
      = (modifyAt pts last (add_edge (last + 1)) ++ chain_nodes (last + 1) (t :: ts),
         last + ts.length + 1) := by
  induction ts generalizing t pts last with
  | nil =>
    show from_path_step (pts, last) t = _
    unfold from_path_step
    rw [modifyAt_append_left pts [GNode.mk t.1 t.2.1 t.2.2 []] last
      (add_edge (last + 1)) (by omega)]
    rfl
  | cons t2 ts' ih =>
    show (t2 :: ts').foldl from_path_step (from_path_step (pts, last) t) = _
    have hstep : from_path_step (pts, last) t
        = (modifyAt pts last (add_edge (last + 1)) ++ [GNode.mk t.1 t.2.1 t.2.2 []],
           last + 1) := by
      unfold from_path_step
      rw [modifyAt_append_left pts [GNode.mk t.1 t.2.1 t.2.2 []] last
        (add_edge (last + 1)) (by omega)]
    rw [hstep]
    have hlen : (modifyAt pts last (add_edge (last + 1))
        ++ [GNode.mk t.1 t.2.1 t.2.2 []]).length = (last + 1) + 1 := by
      simp [length_modifyAt, h]
    rw [ih t2 _ (last + 1) hlen]
    have hl : (modifyAt pts last (add_edge (last + 1))).length = last + 1 := by
      rw [length_modifyAt, h]
    have hmod := modifyAt_append_eq (modifyAt pts last (add_edge (last + 1)))
      (GNode.mk t.1 t.2.1 t.2.2 []) [] (add_edge (last + 2))
    rw [hl] at hmod
    rw [hmod]
    simp only [Prod.mk.injEq, chain_nodes, add_edge, List.append_assoc,
      List.singleton_append, List.nil_append, List.length_cons]
    exact ⟨trivial, by omega⟩

/-- The full vertex loop of `from_path` on a non-empty triple list: the start
node (now carrying its edge to node 1) followed by the chain of path nodes;
`last_point` ends at the index of the final node. -/
theorem from_path_loop_eq (start : Point) (t : Triple) (ts : List Triple) :
    (t :: ts).foldl from_path_step ([start_node start], 0)
      = ((⟨origin, origin, start, [GraphPathEdge.Exterior 1]⟩ : GNode) ::
          chain_nodes 1 (t :: ts), ts.length + 1) := by
  rw [foldl_from_path_step_eq ts t [start_node start] 0 rfl]
  simp only [Prod.mk.injEq, modifyAt, start_node, add_edge, Nat.zero_add,
    List.nil_append, List.singleton_append]

/-- Appending an edge via `add_edge` only touches the edge vector: point data at any index is
unchanged. -/
theorem get?_map_data_modifyAt_add_edge (l : List GNode) (i j k : Nat) :
    ((modifyAt l i (add_edge k)).get? j).map (fun nd => (nd.cp1, nd.cp2, nd.pt))
      = (l.get? j).map (fun nd => (nd.cp1, nd.cp2, nd.pt)) := by
  rw [get?_modifyAt]
  by_cases hij : i = j
  · rw [if_pos hij]
    cases l.get? j <;> rfl
  · rw [if_neg hij]

/-- Pushing `add_edge` under an optional node and projecting the edges. -/
theorem map_edges_add_edge (o : Option GNode) (k : Nat) :
    (o.map (add_edge k)).map GNode.edges
      = (o.map GNode.edges).map (fun es => es ++ [GraphPathEdge.Exterior k]) := by
  cases o <;> rfl

/-- C3 (amended): for a closed input path with at least one segment, writing
`last` for the terminal triple: if the terminal point lies within
`CLOSE_DISTANCE` of the start point, `from_path` removes the last node and
transplants its two control points onto node 0 (node count = number of
segments, node 0 carries `last`'s control points and the start point, and the
final node gains the closing `Exterior` edge to node 0 alongside its
pre-existing edge); otherwise a closing edge to node 0 is added and node 0's
control points are set to the vector from the start point to the terminal
point scaled by the literals 0.33 and 0.66, used directly as absolute
coordinates (not to points 1/3 and 2/3 of the way along the segment from the
terminal point back to the start). -/
theorem from_path_closing_rule (start : Point) (ts : List Triple) (h : ts ≠ []) :
    (distSq start (ts.getLast h).2.2 < CLOSE_DISTANCE_SQ →
        num_points (from_path start ts) = ts.length
      ∧ ((from_path start ts).points.get? 0).map (fun nd => (nd.cp1, nd.cp2, nd.pt))
          = some ((ts.getLast h).1, (ts.getLast h).2.1, start)
      ∧ ((from_path start ts).points.get? (ts.length - 1)).map GNode.edges
          = some [GraphPathEdge.Exterior ts.length, GraphPathEdge.Exterior 0])
    ∧ (¬ distSq start (ts.getLast h).2.2 < CLOSE_DISTANCE_SQ →
        num_points (from_path start ts) = ts.length + 1
      ∧ (from_path start ts).points.get? 0
          = some ⟨pscale (33 / 100) (psub (ts.getLast h).2.2 start),
                  pscale (66 / 100) (psub (ts.getLast h).2.2 start),
                  start, [GraphPathEdge.Exterior 1]⟩
      ∧ ((from_path start ts).points.get? ts.length).map GNode.edges
          = some [GraphPathEdge.Exterior 0]) := by
  cases ts with
  | nil => exact absurd rfl h
  | cons t ts' =>
    have hchainlen : (chain_nodes 1 (t :: ts')).length = ts'.length + 1 := by
      rw [chain_nodes_length]
      rfl
    have hlastget : (chain_nodes 1 (t :: ts')).get? ts'.length
        = some ⟨((t :: ts').getLast h).1, ((t :: ts').getLast h).2.1,
               ((t :: ts').getLast h).2.2, []⟩ := by
      have hcl := chain_nodes_get_last 1 (t :: ts') h
      simpa using hcl
    have hpt : (getNode (GNode.mk origin origin start [GraphPathEdge.Exterior 1] ::
          chain_nodes 1 (t :: ts')) (ts'.length + 1)).pt
        = ((t :: ts').getLast h).2.2 := by
      show (((chain_nodes 1 (t :: ts')).get? ts'.length).getD defaultGNode).pt = _
      rw [hlastget]
      rfl
    have hcp1 : (getNode (GNode.mk origin origin start [GraphPathEdge.Exterior 1] ::
          chain_nodes 1 (t :: ts')) (ts'.length + 1)).cp1
        = ((t :: ts').getLast h).1 := by
      show (((chain_nodes 1 (t :: ts')).get? ts'.length).getD defaultGNode).cp1 = _
      rw [hlastget]
      rfl
    have hcp2 : (getNode (GNode.mk origin origin start [GraphPathEdge.Exterior 1] ::
          chain_nodes 1 (t :: ts')) (ts'.length + 1)).cp2
        = ((t :: ts').getLast h).2.1 := by
      show (((chain_nodes 1 (t :: ts')).get? ts'.length).getD defaultGNode).cp2 = _
      rw [hlastget]
      rfl
    refine ⟨fun hclose => ?_, fun hfar => ?_⟩
    · -- close branch: transplant the control points, pop the last node
      unfold from_path
      rw [from_path_loop_eq start t ts']
      simp only [apply_ite Prod.fst, apply_ite Prod.snd, gt_iff_lt, Nat.succ_pos,
        if_true, Nat.add_sub_cancel, hpt, hcp1, hcp2]
      rw [if_pos hclose, if_pos hclose]
      have hlenmod : 0 + 1 < (modifyAt
          (GNode.mk origin origin start [GraphPathEdge.Exterior 1] ::
            chain_nodes 1 (t :: ts')) 0 (fun nd =>
              { nd with cp1 := ((t :: ts').getLast h).1,
                        cp2 := ((t :: ts').getLast h).2.1 })).length := by
        rw [length_modifyAt]
        simp [hchainlen]
      refine ⟨?_, ?_, ?_⟩
      · show (modifyAt _ _ (add_edge 0)).length = _
        rw [length_modifyAt, List.length_dropLast, length_modifyAt]
        simp [hchainlen]
      · rw [get?_map_data_modifyAt_add_edge]
        rw [get?_dropLast _ 0 hlenmod]
        rw [get?_modifyAt]
        rw [if_pos rfl]
        rfl
      · show ((modifyAt _ ts'.length (add_edge 0)).get? ts'.length).map GNode.edges
            = _
        rw [get?_modifyAt, if_pos rfl]
        rw [get?_dropLast _ ts'.length (by rw [length_modifyAt]; simp [hchainlen])]
        rw [map_edges_add_edge]
        cases hL : ts'.length with
        | zero =>
          rw [get?_modifyAt, if_pos rfl]
          simp [List.length_cons, hL]
        | succ m =>
          rw [get?_modifyAt, if_neg (by omega)]
          have hedges := chain_nodes_get_edges 1 (t :: ts') m
            (by simp [hL, Nat.succ_lt_succ_iff])
          show (((chain_nodes 1 (t :: ts')).get? m).map GNode.edges).map _ = _
          rw [hedges]
          simp [List.length_cons, hL]
          omega
    · -- far branch: synthesise the closing control points
      unfold from_path
      rw [from_path_loop_eq start t ts']
      simp only [apply_ite Prod.fst, apply_ite Prod.snd, gt_iff_lt, Nat.succ_pos,
        if_true, Nat.add_sub_cancel, hpt, hcp1, hcp2]
      rw [if_neg hfar, if_neg hfar]
      refine ⟨?_, ?_, ?_⟩
      · show (modifyAt _ _ (add_edge 0)).length = _
        rw [length_modifyAt, length_modifyAt]
        simp [hchainlen]
      · rw [get?_modifyAt, if_neg (by omega)]
        rw [get?_modifyAt, if_pos rfl]
        rfl
      · show ((modifyAt _ (ts'.length + 1) (add_edge 0)).get? ((t :: ts').length)).map
            GNode.edges = _
        simp only [List.length_cons]
        rw [get?_modifyAt, if_pos rfl]
        rw [get?_modifyAt, if_neg (by omega)]
        show (((chain_nodes 1 (t :: ts')).get? ts'.length).map (add_edge 0)).map
            GNode.edges = _
        rw [hlastget]
        rfl

/-- Closed witness for C3: the amended closing rule evaluated on the concrete
single-segment path from (0,0) to (10,0). -/
theorem from_path_closing_rule_witness :
    num_points (from_path ((0 : ℚ), (0 : ℚ)) [((3, 0), (7, 0), (10, 0))]) = 2
    ∧ (from_path ((0 : ℚ), (0 : ℚ)) [((3, 0), (7, 0), (10, 0))]).points.get? 0
        = some ⟨(33 / 10, 0), (33 / 5, 0), (0, 0), [GraphPathEdge.Exterior 1]⟩
    ∧ ((from_path ((0 : ℚ), (0 : ℚ)) [((3, 0), (7, 0), (10, 0))]).points.get? 1).map
        GNode.edges = some [GraphPathEdge.Exterior 0] := by
  have h := (from_path_closing_rule ((0 : ℚ), (0 : ℚ)) [((3, 0), (7, 0), (10, 0))]
      (List.cons_ne_nil _ _)).2
    (by norm_num [List.getLast, distSq, CLOSE_DISTANCE_SQ])
  refine ⟨h.1, ?_, h.2.2⟩
  rw [h.2.1]
  norm_num [List.getLast, pscale, psub]

/-- C3 counterexample: for the open-ended single-segment path with start
(0,0) and one triple ((3,0),(7,0),(10,0)) — terminal point (10,0), far from
the start — the first control point that `from_path` stores on node 0 is
(33/10, 0).  This is not the point 1/3 of the way along the straight segment
from the last point to the start point (that is (20/3, 0)), nor the vector
from the last point to the start point scaled by 1/3 (that is (-10/3, 0)),
nor even the code's own start-to-last vector scaled by exactly 1/3 (that is
(10/3, 0)): the source scales by the literal 0.33. -/
theorem from_path_closing_cp_counterexample :
    ((from_path ((0 : ℚ), (0 : ℚ)) [((3, 0), (7, 0), (10, 0))]).points.get? 0).map
        GNode.cp1 = some (33 / 10, 0)
    ∧ ((33 / 10 : ℚ), (0 : ℚ)) ≠ ((20 / 3 : ℚ), (0 : ℚ))
    ∧ ((33 / 10 : ℚ), (0 : ℚ)) ≠ ((-10 / 3 : ℚ), (0 : ℚ))
    ∧ ((33 / 10 : ℚ), (0 : ℚ)) ≠ ((10 / 3 : ℚ), (0 : ℚ)) := by
  refine ⟨?_, by norm_num, by norm_num, by norm_num⟩
  norm_num [from_path, from_path_step, start_node, add_edge, modifyAt,
    getNode, distSq, CLOSE_DISTANCE_SQ, pscale, psub, origin]

/-! ### Classification-layer lemmas -/

theorem num_edges_setEdgeKind (k : EdgeKind) (e : Nat) (g : CGraph) :
    num_edges (setEdgeKind k e g) = num_edges g := by
  unfold num_edges setEdgeKind
  exact length_modifyAt _ _ _

theorem edgeKind_setEdgeKind (k : EdgeKind) (i j : Nat) (g : CGraph) :
    edgeKind (setEdgeKind k i g) j
      = if i = j ∧ j < num_edges g then k else edgeKind g j := by
  unfold edgeKind setEdgeKind num_edges
  rw [get?_modifyAt]
  by_cases hij : i = j
  · subst hij
    cases hget : g.edges.get? i with
    | none =>
      have hlen : g.edges.length ≤ i := List.get?_eq_none.1 hget
      rw [if_pos rfl, if_neg (by omega)]
      rfl
    | some c =>
      have hlt : i < g.edges.length := by
        by_contra hcon
        rw [List.get?_eq_none.2 (Nat.le_of_not_lt hcon)] at hget
        cases hget
      rw [if_pos rfl, if_pos ⟨rfl, hlt⟩]
      rfl
  · rw [if_neg hij, if_neg (fun hc => hij hc.1)]

theorem num_edges_foldl_setEdgeKind (L : List Nat) (k : EdgeKind) (g : CGraph) :
    num_edges (L.foldl (fun g i => setEdgeKind k i g) g) = num_edges g := by
  induction L generalizing g with
  | nil => rfl
  | cons i L ih => rw [List.foldl_cons, ih, num_edges_setEdgeKind]

theorem edgeKind_foldl_setEdgeKind (L : List Nat) (k : EdgeKind) (g : CGraph)
    (d : Nat) :
    edgeKind (L.foldl (fun g i => setEdgeKind k i g) g) d
      = if d ∈ L ∧ d < num_edges g then k else edgeKind g d := by
  induction L generalizing g with
  | nil => simp
  | cons i L ih =>
    rw [List.foldl_cons, ih, num_edges_setEdgeKind, edgeKind_setEdgeKind]
    by_cases hL : d ∈ L ∧ d < num_edges g
    · rw [if_pos hL, if_pos ⟨List.mem_cons_of_mem i hL.1, hL.2⟩]
    · rw [if_neg hL]
      by_cases hid : i = d ∧ d < num_edges g
      · rw [if_pos hid, if_pos ⟨hid.1 ▸ List.mem_cons_self i L, hid.2⟩]
      · rw [if_neg hid, if_neg ?_]
        intro hc
        rcases List.mem_cons.1 hc.1 with hdi | hdL
        · exact hid ⟨hdi.symm, hc.2⟩
        · exact hL ⟨hdL, hc.2⟩

theorem num_edges_sekc (conn : Nat → List Nat) (k : EdgeKind) (e : Nat)
    (g : CGraph) :
    num_edges (set_edge_kind_connected conn k e g) = num_edges g :=
  num_edges_foldl_setEdgeKind _ _ _

theorem edgeKind_sekc (conn : Nat → List Nat) (k : EdgeKind) (e d : Nat)
    (g : CGraph) :
    edgeKind (set_edge_kind_connected conn k e g) d
      = if d ∈ eclass conn e ∧ d < num_edges g then k else edgeKind g d :=
  edgeKind_foldl_setEdgeKind _ _ _ _

theorem mem_eclass_self (conn : Nat → List Nat) (a : Nat) :
    a ∈ eclass conn a := List.mem_cons_self a (conn a)

/-- The graph's edge kinds are uniform on every opposite-direction class. -/
def ClassUniform (conn : Nat → List Nat) (g : CGraph) : Prop :=
  ∀ a b, b ∈ eclass conn a → edgeKind g b = edgeKind g a

/-- The opposite-direction relation is coherent: members of one class have
membership-equal classes (the classes partition the edges they mention). -/
def ClassClosed (conn : Nat → List Nat) : Prop :=
  ∀ a b, b ∈ eclass conn a → ∀ c, (c ∈ eclass conn a ↔ c ∈ eclass conn b)

/-- The opposite-direction relation relates in-range edges to in-range edges
(and out-of-range indices only to out-of-range indices). -/
def ClassRanged (conn : Nat → List Nat) (N : Nat) : Prop :=
  ∀ a b, b ∈ eclass conn a → (a < N ↔ b < N)

theorem sekc_preserves (conn : Nat → List Nat) (k : EdgeKind) (e : Nat)
    (g : CGraph) (hcls : ClassClosed conn)
    (hrng : ClassRanged conn (num_edges g)) (huni : ClassUniform conn g)
    (hke : edgeKind g e = EdgeKind.Uncategorised) :
    (∀ d, edgeKind g d ≠ EdgeKind.Uncategorised →
       edgeKind (set_edge_kind_connected conn k e g) d = edgeKind g d)
    ∧ ClassUniform conn (set_edge_kind_connected conn k e g) := by
  constructor
  · intro d hd
    rw [edgeKind_sekc]
    by_cases hc : d ∈ eclass conn e ∧ d < num_edges g
    · exact absurd (huni e d hc.1 ▸ hke) hd
    · rw [if_neg hc]
  · intro a b hab
    rw [edgeKind_sekc, edgeKind_sekc]
    by_cases hae : a ∈ eclass conn e
    · have hbe : b ∈ eclass conn e := (hcls e a hae b).2 hab
      by_cases halen : a < num_edges g
      · have hblen : b < num_edges g := (hrng a b hab).1 halen
        rw [if_pos ⟨hbe, hblen⟩, if_pos ⟨hae, halen⟩]
      · have hblen : ¬ b < num_edges g := fun hb => halen ((hrng a b hab).2 hb)
        rw [if_neg (fun hc => hblen hc.2), if_neg (fun hc => halen hc.2)]
        exact huni a b hab
    · have hbe : b ∉ eclass conn e := by
        intro hbe
        exact hae ((hcls e b hbe a).2 ((hcls a b hab a).1 (mem_eclass_self conn a)))
      rw [if_neg (fun hc => hbe hc.1), if_neg (fun hc => hae hc.1)]
      exact huni a b hab

/-- Kinds already categorised in `g` survive unchanged into `g'`. -/
def KindsPreserved (g g' : CGraph) : Prop :=
  ∀ d, edgeKind g d ≠ EdgeKind.Uncategorised → edgeKind g' d = edgeKind g d

theorem process_edge_preserves (conn : Nat → List Nat) (is_int w : Bool)
    (st : CGraph × Bool × Bool) (e : Nat) (hcls : ClassClosed conn)
    (hrng : ClassRanged conn (num_edges st.1))
    (huni : ClassUniform conn st.1) :
    KindsPreserved st.1 (process_edge conn is_int w st e).1
    ∧ ClassUniform conn (process_edge conn is_int w st e).1
    ∧ num_edges (process_edge conn is_int w st e).1 = num_edges st.1 := by
  obtain ⟨g, in1, in2⟩ := st
  cases hint : is_int with
  | true =>
    simp only [process_edge, if_true]
    exact ⟨fun d hd => rfl, huni, trivial⟩
  | false =>
    by_cases hk : edgeKind g e = EdgeKind.Uncategorised
    · simp only [process_edge, Bool.false_eq_true, if_false, if_pos hk]
      have hp := sekc_preserves conn
        (if xor w ((toggleSource (edgeSource g e) (in1, in2)).1
            || (toggleSource (edgeSource g e) (in1, in2)).2) then
          EdgeKind.Exterior else EdgeKind.Interior) e g hcls hrng huni hk
      exact ⟨hp.1, hp.2, num_edges_sekc _ _ _ _⟩
    · simp only [process_edge, Bool.false_eq_true, if_false, if_neg hk]
      exact ⟨fun d hd => rfl, huni, trivial⟩

theorem foldl_process_edge_preserves (conn : Nat → List Nat) (is_int w : Bool)
    (es : List Nat) (st : CGraph × Bool × Bool) (hcls : ClassClosed conn)
    (hrng : ClassRanged conn (num_edges st.1))
    (huni : ClassUniform conn st.1) :
    KindsPreserved st.1 ((es.foldl (process_edge conn is_int w) st)).1
    ∧ ClassUniform conn ((es.foldl (process_edge conn is_int w) st)).1
    ∧ num_edges ((es.foldl (process_edge conn is_int w) st)).1
        = num_edges st.1 := by
  induction es generalizing st with
  | nil => exact ⟨fun d hd => rfl, huni, rfl⟩
  | cons e es ih =>
    rw [List.foldl_cons]
    have h1 := process_edge_preserves conn is_int w st e hcls hrng huni
    have h2 := ih (process_edge conn is_int w st e)
      (by rw [h1.2.2]; exact hrng) h1.2.1
    refine ⟨fun d hd => ?_, h2.2.1, h2.2.2.trans h1.2.2⟩
    rw [h2.1 d (ne_of_eq_of_ne (h1.1 d hd) hd), h1.1 d hd]

theorem process_collision_preserves (conn : Nat → List Nat)
    (st : CGraph × Bool × Bool) (c : RayCollision) (hcls : ClassClosed conn)
    (hrng : ClassRanged conn (num_edges st.1))
    (huni : ClassUniform conn st.1) :
    KindsPreserved st.1 (process_collision conn st c).1
    ∧ ClassUniform conn (process_collision conn st c).1
    ∧ num_edges (process_collision conn st c).1 = num_edges st.1 := by
  unfold process_collision
  exact foldl_process_edge_preserves conn c.is_intersection _ c.hit_edges st
    hcls hrng huni

theorem foldl_process_collision_preserves (conn : Nat → List Nat)
    (cols : List RayCollision) (st : CGraph × Bool × Bool)
    (hcls : ClassClosed conn) (hrng : ClassRanged conn (num_edges st.1))
    (huni : ClassUniform conn st.1) :
    KindsPreserved st.1 ((cols.foldl (process_collision conn) st)).1
    ∧ ClassUniform conn ((cols.foldl (process_collision conn) st)).1
    ∧ num_edges ((cols.foldl (process_collision conn) st)).1
        = num_edges st.1 := by
  induction cols generalizing st with
  | nil => exact ⟨fun d hd => rfl, huni, rfl⟩
  | cons c cols ih =>
    rw [List.foldl_cons]
    have h1 := process_collision_preserves conn st c hcls hrng huni
    have h2 := ih (process_collision conn st c)
      (by rw [h1.2.2]; exact hrng) h1.2.1
    refine ⟨fun d hd => ?_, h2.2.1, h2.2.2.trans h1.2.2⟩
    rw [h2.1 d (ne_of_eq_of_ne (h1.1 d hd) hd), h1.1 d hd]

theorem run_ray_preserves (conn : Nat → List Nat)
    (oracle : Nat → List RayCollision) (g : CGraph) (e : Nat)
    (hcls : ClassClosed conn) (hrng : ClassRanged conn (num_edges g))
    (huni : ClassUniform conn g) :
    KindsPreserved g (run_ray conn oracle g e)
    ∧ ClassUniform conn (run_ray conn oracle g e)
    ∧ num_edges (run_ray conn oracle g e) = num_edges g := by
  unfold run_ray
  exact foldl_process_collision_preserves conn (oracle e) (g, false, false)
    hcls hrng huni

theorem set_exterior_none (conn : Nat → List Nat)
    (oracle : Nat → List RayCollision) (fuel : Nat) (g : CGraph)
    (h : first_uncategorised g = none) :
    set_exterior_by_adding conn oracle fuel g = g := by
  cases fuel with
  | zero => rfl
  | succ f => simp [set_exterior_by_adding, h]

theorem set_exterior_step (conn : Nat → List Nat)
    (oracle : Nat → List RayCollision) (fuel : Nat) (g : CGraph) (e : Nat)
    (h : first_uncategorised g = some e) :
    set_exterior_by_adding conn oracle (fuel + 1) g
      = set_exterior_by_adding conn oracle fuel (run_ray conn oracle g e) := by
  simp [set_exterior_by_adding, h]

theorem set_exterior_add (conn : Nat → List Nat)
    (oracle : Nat → List RayCollision) (n m : Nat) (g : CGraph) :
    set_exterior_by_adding conn oracle (n + m) g
      = set_exterior_by_adding conn oracle m
          (set_exterior_by_adding conn oracle n g) := by
  induction n generalizing g with
  | zero => rw [Nat.zero_add]; rfl
  | succ n ih =>
    rw [Nat.succ_add]
    cases hf : first_uncategorised g with
    | none =>
      rw [set_exterior_none conn oracle (n + m + 1) g hf,
          set_exterior_none conn oracle (n + 1) g hf,
          set_exterior_none conn oracle m g hf]
    | some e =>
      rw [set_exterior_step conn oracle (n + m) g e hf,
          set_exterior_step conn oracle n g e hf, ih]

theorem set_exterior_preserves (conn : Nat → List Nat)
    (oracle : Nat → List RayCollision) (fuel : Nat) (g : CGraph)
    (hcls : ClassClosed conn) (hrng : ClassRanged conn (num_edges g))
    (huni : ClassUniform conn g) :
    KindsPreserved g (set_exterior_by_adding conn oracle fuel g)
    ∧ ClassUniform conn (set_exterior_by_adding conn oracle fuel g)
    ∧ num_edges (set_exterior_by_adding conn oracle fuel g) = num_edges g := by
  induction fuel generalizing g with
  | zero => exact ⟨fun d hd => rfl, huni, rfl⟩
  | succ f ih =>
    cases hf : first_uncategorised g with
    | none =>
      rw [set_exterior_none conn oracle _ _ hf]
      exact ⟨fun d hd => rfl, huni, rfl⟩
    | some e =>
      rw [set_exterior_step conn oracle f g e hf]
      have h1 := run_ray_preserves conn oracle g e hcls hrng huni
      have h2 := ih (run_ray conn oracle g e)
        (by rw [h1.2.2]; exact hrng) h1.2.1
      refine ⟨fun d hd => ?_, h2.2.1, h2.2.2.trans h1.2.2⟩
      rw [h2.1 d (ne_of_eq_of_ne (h1.1 d hd) hd), h1.1 d hd]

/-- C7: classification is monotonic across the iterations of
`set_exterior_by_adding`.  Under the structural hypotheses on the
opposite-direction relation — its classes are membership-coherent, relate
in-range edges to in-range edges, and the starting graph is kind-uniform on
each class (all trivially true of the graphs the pipeline builds, where the
relation pairs each edge with its reversals and edges start out
`Uncategorised`) — once an edge's kind has been set away from `Uncategorised`
by iteration `n`, every later iteration leaves it unchanged. -/
theorem classification_monotonic (conn : Nat → List Nat)
    (oracle : Nat → List RayCollision) (g : CGraph)
    (hcls : ClassClosed conn) (hrng : ClassRanged conn (num_edges g))
    (huni : ClassUniform conn g) (n m e : Nat)
    (h : edgeKind (set_exterior_by_adding conn oracle n g) e
      ≠ EdgeKind.Uncategorised) :
    edgeKind (set_exterior_by_adding conn oracle (n + m) g) e
      = edgeKind (set_exterior_by_adding conn oracle n g) e := by
  rw [set_exterior_add]
  have h1 := set_exterior_preserves conn oracle n g hcls hrng huni
  have h2 := set_exterior_preserves conn oracle m
    (set_exterior_by_adding conn oracle n g) hcls
    (by rw [h1.2.2]; exact hrng) h1.2.1
  exact h2.1 e h

/-- The trivial opposite-direction relation (no reversed duplicates). -/
def conn_id : Nat → List Nat := fun _ => []

/-- A ray oracle for which the cast ray crosses exactly the edge it was aimed
at, in a non-intersection crossing. -/
def oracle_hit : Nat → List RayCollision := fun e => [⟨false, [e]⟩]

/-- A degenerate ray oracle: the cast ray reports no crossings at all
(numerically degenerate geometry). -/
def oracle_empty : Nat → List RayCollision := fun _ => []

/-- A one-edge labelled graph whose single edge is still `Uncategorised`. -/
def cg1 : CGraph :=
  ⟨[⟨EdgeKind.Uncategorised, ⟨PathSource.Path1, PathDirection.Clockwise⟩⟩]⟩

/-- Closed witness for C7 on the concrete one-edge graph: after one iteration
the edge is categorised, and two further iterations leave it unchanged. -/
theorem classification_monotonic_witness :
    edgeKind (set_exterior_by_adding conn_id oracle_hit (1 + 2) cg1) 0
      = edgeKind (set_exterior_by_adding conn_id oracle_hit 1 cg1) 0 := by
  apply classification_monotonic conn_id oracle_hit cg1
  · intro a b hb c
    simp only [eclass, conn_id, List.mem_singleton] at hb
    subst hb
    exact Iff.rfl
  · intro a b hb
    simp only [eclass, conn_id, List.mem_singleton] at hb
    subst hb
    exact Iff.rfl
  · intro a b hb
    simp only [eclass, conn_id, List.mem_singleton] at hb
    subst hb
    rfl
  · decide

theorem firstUncatAux_none_iff (cs : List CEdge) (i : Nat) :
    firstUncatAux cs i = none
      ↔ cs.filter (fun c => c.kind == EdgeKind.Uncategorised) = [] := by
  induction cs generalizing i with
  | nil => simp [firstUncatAux]
  | cons c cs ih =>
    by_cases hc : c.kind = EdgeKind.Uncategorised
    · simp [firstUncatAux, List.filter_cons, beq_iff_eq, hc]
    · simp [firstUncatAux, List.filter_cons, beq_iff_eq, hc, ih (i + 1)]

theorem first_uncategorised_none_iff (g : CGraph) :
    first_uncategorised g = none ↔ uncat_count g = 0 := by
  unfold first_uncategorised uncat_count
  rw [firstUncatAux_none_iff, List.length_eq_zero]

theorem firstUncatAux_some_spec (cs : List CEdge) (i e : Nat)
    (h : firstUncatAux cs i = some e) :
    i ≤ e ∧ e - i < cs.length
      ∧ (cs.get? (e - i)).map CEdge.kind = some EdgeKind.Uncategorised := by
  induction cs generalizing i with
  | nil => cases h
  | cons c cs ih =>
    by_cases hc : c.kind = EdgeKind.Uncategorised
    · rw [firstUncatAux, if_pos hc] at h
      have hie : i = e := Option.some.inj h
      subst hie
      refine ⟨Nat.le_refl i, by simp, ?_⟩
      rw [Nat.sub_self]
      simp [hc]
    · rw [firstUncatAux, if_neg hc] at h
      obtain ⟨h1, h2, h3⟩ := ih (i + 1) h
      refine ⟨by omega, ?_, ?_⟩
      · simp only [List.length_cons]
        omega
      · have he : e - i = (e - (i + 1)) + 1 := by omega
        rw [he]
        exact h3

theorem first_uncategorised_some_spec (g : CGraph) (e : Nat)
    (h : first_uncategorised g = some e) :
    e < num_edges g
      ∧ (g.edges.get? e).map CEdge.kind = some EdgeKind.Uncategorised := by
  obtain ⟨h1, h2, h3⟩ := firstUncatAux_some_spec g.edges 0 e h
  rw [Nat.sub_zero] at h2 h3
  exact ⟨h2, h3⟩

theorem uncat_count_set_lt (cs : List CEdge) (e : Nat) (k : EdgeKind)
    (hk : ¬ k = EdgeKind.Uncategorised)
    (h : (cs.get? e).map CEdge.kind = some EdgeKind.Uncategorised) :
    ((modifyAt cs e (fun c => { c with kind := k })).filter
        (fun c => c.kind == EdgeKind.Uncategorised)).length
      < (cs.filter (fun c => c.kind == EdgeKind.Uncategorised)).length := by
  induction cs generalizing e with
  | nil => cases h
  | cons c cs ih =>
    cases e with
    | zero =>
      have hc : c.kind = EdgeKind.Uncategorised := by
        simpa using h
      simp only [modifyAt, List.filter_cons, beq_iff_eq, hc, if_pos rfl,
        if_neg hk, decide_eq_true_eq]
      simp only [decide_True, if_true, List.length_cons,
        decide_eq_true_eq, if_neg hk]
      exact Nat.lt_succ_of_le (Nat.le_refl _)
    | succ m =>
      have hc2 := ih m h
      by_cases hc : c.kind = EdgeKind.Uncategorised
      · simp only [modifyAt, List.filter_cons, beq_iff_eq, hc,
          decide_eq_true_eq, decide_True, if_true, List.length_cons]
        exact Nat.succ_lt_succ hc2
      · simp only [modifyAt, List.filter_cons, beq_iff_eq,
          decide_eq_true_eq, if_neg hc]
        exact hc2

theorem uncat_count_le (g : CGraph) : uncat_count g ≤ num_edges g :=
  List.length_filter_le _ _

/-- C2 (amended): the classification loop has no iteration guard — it stops
only when no `Uncategorised` edge remains.  Whenever every cast ray
categorises at least one edge (each iteration strictly decreases the number
of `Uncategorised` edges), the loop does complete within a number of
iterations bounded by the total edge count; with a degenerate ray that
categorises nothing, the loop makes no progress and never terminates (see the
counterexample theorem). -/
theorem set_exterior_terminates_with_progress (conn : Nat → List Nat)
    (oracle : Nat → List RayCollision) (g : CGraph)
    (hprog : ∀ g' e, first_uncategorised g' = some e →
      uncat_count (run_ray conn oracle g' e) < uncat_count g') :
    first_uncategorised
      (set_exterior_by_adding conn oracle (num_edges g) g) = none := by
  have aux : ∀ fuel g', uncat_count g' ≤ fuel →
      first_uncategorised (set_exterior_by_adding conn oracle fuel g') = none := by
    intro fuel
    induction fuel with
    | zero =>
      intro g' h0
      exact (first_uncategorised_none_iff g').2 (Nat.le_zero.1 h0)
    | succ f ih =>
      intro g' hle
      cases hf : first_uncategorised g' with
      | none =>
        rw [set_exterior_none conn oracle _ _ hf]
        exact hf
      | some e =>
        rw [set_exterior_step conn oracle f g' e hf]
        exact ih _ (by have := hprog g' e hf; omega)
  exact aux (num_edges g) g (uncat_count_le g)

/-- With the `oracle_hit` ray oracle, every iteration categorises the edge it
aims at, so the uncategorised count strictly decreases. -/
theorem oracle_hit_progress (g' : CGraph) (e : Nat)
    (hf : first_uncategorised g' = some e) :
    uncat_count (run_ray conn_id oracle_hit g' e) < uncat_count g' := by
  obtain ⟨hlt, hkind⟩ := first_uncategorised_some_spec g' e hf
  have hek : edgeKind g' e = EdgeKind.Uncategorised := by
    unfold edgeKind
    rw [hkind]
    rfl
  have hrun : run_ray conn_id oracle_hit g' e
      = setEdgeKind EdgeKind.Exterior e g' := by
    cases hs : edgeSource g' e <;>
      simp [run_ray, oracle_hit, process_collision, process_edge, hs, hek,
        set_edge_kind_connected, eclass, conn_id, toggleSource]
  rw [hrun]
  exact uncat_count_set_lt g'.edges e EdgeKind.Exterior (by simp) hkind

/-- Closed witness for C2's amended statement: with the progressing oracle,
the one-edge graph is fully categorised within `num_edges` iterations. -/
theorem set_exterior_terminates_witness :
    first_uncategorised
      (set_exterior_by_adding conn_id oracle_hit (num_edges cg1) cg1) = none :=
  set_exterior_terminates_with_progress conn_id oracle_hit cg1
    (fun g' e hf => oracle_hit_progress g' e hf)

/-- C2 counterexample: on the one-edge graph with a degenerate ray oracle
that reports no crossings, an iteration of the loop changes nothing, so even
after running strictly more iterations than the total edge count the edge is
still `Uncategorised` — it is never force-classified `Interior`, and the Rust
loop (which iterates until no `Uncategorised` edge remains) would spin
forever on this input. -/
theorem set_exterior_no_guard_counterexample :
    num_edges cg1 = 1
    ∧ first_uncategorised cg1 = some 0
    ∧ run_ray conn_id oracle_empty cg1 0 = cg1
    ∧ set_exterior_by_adding conn_id oracle_empty (num_edges cg1 + 3) cg1 = cg1
    ∧ edgeKind (set_exterior_by_adding conn_id oracle_empty
        (num_edges cg1 + 3) cg1) 0 = EdgeKind.Uncategorised := by
  refine ⟨by decide, by decide, by decide, by decide, by decide⟩

/-- C4: the ray-walk state of `set_exterior_by_adding` starts from
`(inside_path1, inside_path2) = (false, false)`; each crossing of an edge
toggles the boolean belonging to the crossed edge's source path (read from
its `PathLabel`), whether or not the crossing is an intersection; and at a
non-intersection crossing of an edge that is still `Uncategorised`, the edge
is classified `Exterior` exactly when the OR of the two booleans differs
before and after the toggle, `Interior` otherwise. -/
theorem ray_state_classification (conn : Nat → List Nat)
    (oracle : Nat → List RayCollision) (g : CGraph)
    (in1 in2 w is_int : Bool) (e : Nat) (he : e < num_edges g) :
    run_ray conn oracle g e
      = ((oracle e).foldl (process_collision conn) (g, false, false)).1
    ∧ (process_edge conn is_int w (g, in1, in2) e).2
        = toggleSource (edgeSource g e) (in1, in2)
    ∧ (edgeKind g e = EdgeKind.Uncategorised →
        edgeKind ((process_collision conn (g, in1, in2) ⟨false, [e]⟩).1) e
          = if xor (in1 || in2)
              ((toggleSource (edgeSource g e) (in1, in2)).1
                || (toggleSource (edgeSource g e) (in1, in2)).2)
            then EdgeKind.Exterior else EdgeKind.Interior) := by
  refine ⟨rfl, ?_, ?_⟩
  · cases is_int with
    | true => simp [process_edge]
    | false =>
      by_cases hk : edgeKind g e = EdgeKind.Uncategorised
      · simp [process_edge, hk]
      · simp [process_edge, hk]
  · intro hk
    show edgeKind ((process_edge conn false (in1 || in2) (g, in1, in2) e).1) e
        = _
    simp only [process_edge, Bool.false_eq_true, if_false, if_pos hk]
    rw [edgeKind_sekc, if_pos ⟨mem_eclass_self conn e, he⟩]

/-- Closed witness for C4 on the concrete one-edge graph: the crossing
toggles `inside_path1` and classifies the edge `Exterior`. -/
theorem ray_state_classification_witness :
    (process_edge conn_id false false (cg1, false, false) 0).2
      = toggleSource (edgeSource cg1 0) (false, false)
    ∧ edgeKind ((process_collision conn_id (cg1, false, false)
        ⟨false, [0]⟩).1) 0 = EdgeKind.Exterior := by
  have h := ray_state_classification conn_id oracle_hit cg1 false false false
    false 0 (by decide)
  refine ⟨h.2.1, ?_⟩
  rw [h.2.2 (by decide)]
  decide

end FlowBetween
